import Mathlib

/-!
Shallow embedding of the request-handling core of `src/file_server.py`
(class `CustomHTTPRequestHandler`): path resolution (`translate_path`),
encoding conversion (`convert_to_utf8`), file delivery (`send_file`),
directory-listing delivery (`send_directory_listing`), error rendering
(`send_error`) and HTML escaping (`html_escape`).

Representation choices:
- Python `str` values are `List Char` (Lean `Char` is a Unicode scalar value,
  exactly the code points a Python `str` produced by replacement-decoding holds).
- Python `bytes` values are `List Nat`, each element a byte value < 256.
- Library collaborators that live outside the repository are passed as
  function parameters: `unquote` (urllib URL decoding), `decode` (Python
  codec lookup + `bytes.decode(enc, errors='replace')`, `none` modelling a
  raised `LookupError`/decode failure caught by the bare `except`),
  `mkDisp` (the `Content-Disposition` value built from `re.sub` + `quote`),
  the chardet guess (`detected`) and the mimetypes lookup (`guessedType`).
-/

namespace FileServer

/-- Python substring test `pat in s`: true iff `pat` occurs contiguously in `s`. -/
def hasSub {α : Type} [DecidableEq α] (pat : List α) : List α → Bool
  | [] => pat.isPrefixOf []
  | c :: rest => pat.isPrefixOf (c :: rest) || hasSub pat rest

/-- Python `str.split(sep)` for a one-character separator: splits `s` at every
occurrence of `sep`, keeping empty pieces, so the result is always nonempty. -/
def splitOnChar (sep : Char) : List Char → List (List Char)
  | [] => [[]]
  | c :: rest =>
    if c = sep then [] :: splitOnChar sep rest
    else
      match splitOnChar sep rest with
      | [] => [[c]]
      | s :: ss => (c :: s) :: ss

/-- Python `sep.join(pieces)` for a one-character separator. -/
def joinWith (sep : Char) : List (List Char) → List Char
  | [] => []
  | [s] => s
  | s :: s2 :: rest => s ++ sep :: joinWith sep (s2 :: rest)

/-- Part of `self.path` before the first `?`: `path.split('?', 1)[0]`
(file_server.py line 37). -/
def stripQuery (raw : List Char) : List Char :=
  raw.takeWhile (fun c => !(c == '?'))

/-- Query string used by `send_file` (line 441):
`self.path.split('?')[1] if '?' in self.path else ''` — note index 1 of an
unbounded split, i.e. the text between the first and second `?`. -/
def queryOf (raw : List Char) : List Char :=
  match splitOnChar '?' raw with
  | _ :: q :: _ => q
  | _ => []

/-- The string constant `'/'`. -/
def slashStr : List Char := ['/']

/-- The string constant `'..'`. -/
def ddStr : List Char := ['.', '.']

/-- The string constant `'.'`. -/
def dotStr : List Char := ['.']

/-- POSIX `os.path.join(a, b)` for two arguments: `b` wins if absolute,
otherwise a `/` is inserted unless `a` is empty or already ends in `/`. -/
def joinPath (a b : List Char) : List Char :=
  if b.head? = some '/' then b
  else if a = [] ∨ a.getLast? = some '/' then a ++ b
  else a ++ '/' :: b

/-- One step of the component loop inside POSIX `os.path.normpath`:
skip `''` and `'.'`; append a component unless it is `'..'` that can cancel
(for an absolute path a leading surplus `'..'` is dropped, otherwise it pops
the previous component). -/
def normStep (isAbs : Bool) (acc : List (List Char)) (comp : List Char) : List (List Char) :=
  if comp = [] ∨ comp = dotStr then acc
  else if comp ≠ ddStr ∨ (isAbs = false ∧ acc = []) ∨ (acc ≠ [] ∧ acc.getLast? = some ddStr) then
    acc ++ [comp]
  else if acc ≠ [] then acc.dropLast
  else acc

/-- The processed component list of POSIX `os.path.normpath`. -/
def normpathComps (isAbs : Bool) (comps : List (List Char)) : List (List Char) :=
  comps.foldl (normStep isAbs) []

/-- Leading slashes kept by POSIX `os.path.normpath`: two exactly when the
input starts with `//` but not `///`, one for any other absolute input. -/
def initialSlashes (p : List Char) : List Char :=
  if p.head? = some '/' then
    if p.take 2 = ['/', '/'] ∧ p.take 3 ≠ ['/', '/', '/'] then ['/', '/'] else ['/']
  else []

/-- Final fallback of `os.path.normpath`: an empty result becomes `'.'`. -/
def orDot (l : List Char) : List Char :=
  if l = [] then dotStr else l

/-- POSIX `os.path.normpath`: resolve `.`, `..` and redundant separators.
For the absolute arguments this development uses, `os.path.abspath` on an
already-absolute path equals `os.path.normpath` of it. -/
def normpath (p : List Char) : List Char :=
  if p = [] then dotStr
  else orDot (initialSlashes p ++
    joinWith '/' (normpathComps (p.head? == some '/') (splitOnChar '/' p)))

/-- Nonempty `/`-separated components of a path; `pathComps root` is a prefix
of `pathComps p` exactly when `p` is a descendant of (or equal to) `root`. -/
def pathComps (p : List Char) : List (List Char) :=
  (splitOnChar '/' p).filter (fun c => !c.isEmpty)

/-- Error message sent for a path containing `..` (line 53). -/
def msgTraversal : List Char := "访问上级目录被禁止".toList

/-- Error message sent when the normalized path leaves the root (line 67). -/
def msgEscape : List Char := "访问根目录外的文件被禁止".toList

/-- Outcome of `translate_path`: a filesystem path, or the `send_error(403, …)`
call the method performs before returning `None`. -/
inductive ResolveResult where
  | ok (fullPath : List Char)
  | err (status : Nat) (msg : List Char)
deriving DecidableEq

/-- `CustomHTTPRequestHandler.translate_path` (lines 33–70) for a handler whose
`self.directory` is set (as `main` always does, to `os.path.abspath` of the
served directory, hence absolute): strip the query, URL-decode, resolve `/` to
the root, reject any remaining path containing `..`, else join under the root,
normalize, and reject results that do not start with the absolute root. -/
def translate_path (unquote : List Char → List Char) (root : List Char)
    (rawPath : List Char) : ResolveResult :=
  let path := unquote (stripQuery rawPath)
  if path = slashStr then .ok root
  else if hasSub ddStr path then .err 403 msgTraversal
  else
    let full_path := normpath (joinPath root (path.dropWhile (fun c => c == '/')))
    if !((normpath root).isPrefixOf full_path) then .err 403 msgEscape
    else .ok full_path

/-- Lead-byte table of strict UTF-8 (RFC 3629): for an admissible lead byte,
the number of continuation bytes and the admissible range `[lo, hi)` of the
first continuation byte (which excludes overlong forms, surrogates and code
points above `0x10FFFF`). -/
def utf8Lead (b : Nat) : Option (Nat × Nat × Nat) :=
  if b < 0x80 then some (0, 0, 0)
  else if b < 0xC2 then none
  else if b < 0xE0 then some (1, 0x80, 0xC0)
  else if b = 0xE0 then some (2, 0xA0, 0xC0)
  else if b = 0xED then some (2, 0x80, 0xA0)
  else if b < 0xF0 then some (2, 0x80, 0xC0)
  else if b = 0xF0 then some (3, 0x90, 0xC0)
  else if b < 0xF4 then some (3, 0x80, 0xC0)
  else if b = 0xF4 then some (3, 0x80, 0x90)
  else none

/-- Automaton run for strict UTF-8 validity: `n` continuation bytes are still
expected, the next one within `[lo, hi)`; with `n = 0` the next byte is a lead
byte classified by `utf8Lead`. -/
def validFrom : Nat → Nat → Nat → List Nat → Bool
  | 0, _, _, [] => true
  | 0, _, _, b :: rest =>
    match utf8Lead b with
    | none => false
    | some (n, lo, hi) => validFrom n lo hi rest
  | _ + 1, _, _, [] => false
  | n + 1, lo, hi, b :: rest =>
    if lo ≤ b ∧ b < hi then validFrom n 0x80 0xC0 rest else false

/-- Strict UTF-8 validity of a byte string (RFC 3629). -/
def validUTF8 (l : List Nat) : Bool := validFrom 0 0 0 l

/-- Unicode scalar value: a code point below `0x110000` that is not a
surrogate. Every character of a Python `str` (as produced by decoding with
`errors='replace'`) is a scalar value. -/
def isScalar (c : Nat) : Bool :=
  decide (c < 0xD800) || (decide (0xE000 ≤ c) && decide (c < 0x110000))

/-- UTF-8 encoding of one code point (the byte sequence Python
`str.encode('utf-8')` emits for it). -/
def utf8EncodeChar (c : Nat) : List Nat :=
  if c < 0x80 then [c]
  else if c < 0x800 then [0xC0 + c / 64, 0x80 + c % 64]
  else if c < 0x10000 then [0xE0 + c / 4096, 0x80 + c / 64 % 64, 0x80 + c % 64]
  else [0xF0 + c / 262144, 0x80 + c / 4096 % 64, 0x80 + c / 64 % 64, 0x80 + c % 64]

/-- UTF-8 encoding of a code-point sequence. -/
def utf8Encode (cs : List Nat) : List Nat :=
  (cs.map utf8EncodeChar).flatten

/-- Python `str.encode('utf-8')` on a text value. -/
def utf8Str (s : List Char) : List Nat :=
  (s.map (fun c => utf8EncodeChar c.toNat)).flatten

/-- Decimal rendering of a number, as Python `str(n)` produces for a `Nat`. -/
def natToChars (n : Nat) : List Char :=
  (Nat.repr n).toList

/-- Python `str.lower()`; the encoding names compared here are ASCII, for
which `Char.toLower` agrees with Python. -/
def toLowerStr (s : List Char) : List Char :=
  s.map Char.toLower

/-- The string constant `'utf-8'`. -/
def utf8Name : List Char := "utf-8".toList

/-- `CustomHTTPRequestHandler.convert_to_utf8` (lines 378–390): if a non-empty
encoding other than utf-8 (case-insensitively) was detected, try to decode with
it (`errors='replace'`) and re-encode as UTF-8; on a decoding failure (the bare
`except`) or in every other case, return the original bytes. The function is
total: every branch returns. -/
def convert_to_utf8 (decode : List Char → List Nat → Option (List Nat))
    (content_bytes : List Nat) (detected_encoding : Option (List Char)) : List Nat :=
  match detected_encoding with
  | some e =>
    if e ≠ [] ∧ toLowerStr e ≠ utf8Name then
      match decode e content_bytes with
      | some cps => utf8Encode cps
      | none => content_bytes
    else content_bytes
  | none => content_bytes

/-- An HTTP response as the handler emits it: status code, headers in emission
order, and the concatenation of all bytes written to `self.wfile`. -/
structure Response where
  status : Nat
  headers : List (List Char × List Char)
  body : List Nat

/-- Header name `Content-type` (exact casing used at lines 106 and 469). -/
def hdrContentType : List Char := "Content-type".toList

/-- Header name `Content-Length`. -/
def hdrContentLength : List Char := "Content-Length".toList

/-- Header name `Content-Disposition`. -/
def hdrContentDisposition : List Char := "Content-Disposition".toList

/-- Header name `Connection`. -/
def hdrConnection : List Char := "Connection".toList

/-- Header name `Access-Control-Allow-Origin`. -/
def acaOrigin : List Char := "Access-Control-Allow-Origin".toList

/-- Header name `Access-Control-Allow-Methods`. -/
def acaMethods : List Char := "Access-Control-Allow-Methods".toList

/-- Header name `Access-Control-Allow-Headers`. -/
def acaHeaders : List Char := "Access-Control-Allow-Headers".toList

/-- Header value `*`. -/
def starVal : List Char := ['*']

/-- Header value `GET, OPTIONS`. -/
def methodsVal : List Char := "GET, OPTIONS".toList

/-- Header value `text/html; charset=utf-8`. -/
def ctHtmlUtf8 : List Char := "text/html; charset=utf-8".toList

/-- Header value `close`. -/
def connClose : List Char := "close".toList

/-- Suffix `; charset=utf-8` appended to the content type of inline text. -/
def charsetSuffix : List Char := "; charset=utf-8".toList

/-- Default content type `application/octet-stream` (line 435). -/
def octetStream : List Char := "application/octet-stream".toList

/-- The string constant `text/`. -/
def textSlash : List Char := "text/".toList

/-- The string constant `application/json`. -/
def appJson : List Char := "application/json".toList

/-- The string constant `application/xml`. -/
def appXml : List Char := "application/xml".toList

/-- The string constant `application/javascript`. -/
def appJs : List Char := "application/javascript".toList

/-- The string constant `download=true`. -/
def dlFlag : List Char := "download=true".toList

/-- Text classification in `send_file` (line 438):
`content_type.startswith(('text/', 'application/json', 'application/xml',
'application/javascript'))` — a tuple argument makes `startswith` true when any
of the four is a prefix. -/
def is_text_file (ct : List Char) : Bool :=
  textSlash.isPrefixOf ct || appJson.isPrefixOf ct || appXml.isPrefixOf ct ||
    appJs.isPrefixOf ct

/-- Text classification as the specification words it: content type starting
with `text/` or *equal to* one of the three application types. Stated from the
spec for comparison with `is_text_file`, which the code actually uses. -/
def spec_text_classified (ct : List Char) : Bool :=
  textSlash.isPrefixOf ct || decide (ct = appJson) || decide (ct = appXml) ||
    decide (ct = appJs)

/-- Download flag test in `send_file` (lines 441–442): the literal substring
`download=true` occurring in the query string. -/
def download_requested (rawPath : List Char) : Bool :=
  hasSub dlFlag (queryOf rawPath)

/-- The read loop of `send_file` (lines 489–496): successive `f.read(8192)`
chunks until the file is exhausted. -/
def readChunks : List Nat → List (List Nat)
  | [] => []
  | b :: rest => (b :: rest).take 8192 :: readChunks ((b :: rest).drop 8192)
termination_by l => l.length
decreasing_by simp [List.length_drop]; omega

/-- `CustomHTTPRequestHandler.send_file` (lines 423–496), success path.
`mkDisp` stands for the `re.sub`/`quote` construction of the disposition value
(lines 452–459), `decode` for the codec used by `convert_to_utf8`, `detected`
for the chardet guess of `detect_file_encoding`, `guessedType` for
`mimetypes.guess_type`, `content` for the file's on-disk bytes (so
`content.length` is `os.path.getsize`). -/
def send_file (mkDisp : List Char → List Char)
    (decode : List Char → List Nat → Option (List Nat))
    (detected : Option (List Char)) (guessedType : Option (List Char))
    (rawPath fname : List Char) (content : List Nat) : Response :=
  let content_type := guessedType.getD octetStream
  let is_text := is_text_file content_type
  let dl := download_requested rawPath
  { status := 200
    headers :=
      (if !is_text || dl then [(hdrContentDisposition, mkDisp fname)] else []) ++
      [(hdrContentType,
          if !is_text || dl then content_type
          else if is_text then content_type ++ charsetSuffix else content_type),
        (hdrContentLength, natToChars content.length),
        (acaOrigin, starVal), (acaMethods, methodsVal), (acaHeaders, starVal)]
    body :=
      if is_text && !dl then convert_to_utf8 decode content detected
      else (readChunks content).flatten }

/-- `CustomHTTPRequestHandler.send_directory_listing` (lines 104–109), success
path, applied to the HTML string built by `generate_directory_html`: the body
is the UTF-8 encoding of the page and `Content-Length` is its byte count.
No other headers are sent. -/
def send_directory_listing (html : List Char) : Response :=
  { status := 200
    headers := [(hdrContentType, ctHtmlUtf8),
                (hdrContentLength, natToChars (utf8Str html).length)]
    body := utf8Str html }

/-- Python `str.replace(pat, rep)` for a one-character pattern (the only shape
`html_escape` uses): every occurrence of the character is replaced. -/
def replaceChar (pat : Char) (rep : List Char) (s : List Char) : List Char :=
  (s.map (fun c => if c = pat then rep else [c])).flatten

/-- Entity `&amp;`. -/
def ampEnt : List Char := "&amp;".toList

/-- Entity `&lt;`. -/
def ltEnt : List Char := "&lt;".toList

/-- Entity `&gt;`. -/
def gtEnt : List Char := "&gt;".toList

/-- Entity `&quot;`. -/
def quotEnt : List Char := "&quot;".toList

/-- Entity `&#39;`. -/
def aposEnt : List Char := "&#39;".toList

/-- The apostrophe character. -/
def aposChar : Char := Char.ofNat 39

/-- `CustomHTTPRequestHandler.html_escape` (lines 519–527): empty (falsy) text
maps to the empty string, otherwise the five HTML special characters are
replaced in the order the code chains them. -/
def html_escape (text : List Char) : List Char :=
  if text = [] then []
  else
    replaceChar aposChar aposEnt
      (replaceChar '"' quotEnt
        (replaceChar '>' gtEnt
          (replaceChar '<' ltEnt
            (replaceChar '&' ampEnt text))))

/-- Error page template before the first `{code}` interpolation (lines 556–560). -/
def errA : List Char :=
  "<!DOCTYPE html>\n<html lang=\"zh-CN\">\n<head>\n    <meta charset=\"UTF-8\">\n    <title>错误 ".toList

/-- Error page template between `{code}` and the second `{code}` (lines 560–567). -/
def errB : List Char :=
  "</title>\n    <style>\n        body \x7b font-family: \x27Microsoft YaHei\x27, sans-serif; padding: 20px; \x7d\n        .error \x7b color: #d32f2f; \x7d\n    </style>\n</head>\n<body>\n    <h1>错误 ".toList

/-- Error page template between the second `{code}` and `{message}` (line 568). -/
def errC : List Char :=
  "</h1>\n    <p class=\"error\">".toList

/-- Error page template after `{message}` (lines 568–571). -/
def errD : List Char :=
  "</p>\n    <p><a href=\"/\">返回首页</a></p>\n</body>\n</html>".toList

/-- The `error_html` f-string of `send_error` (lines 556–571): the status code
and the message are interpolated into the fixed template verbatim. -/
def errorHtml (code : Nat) (message : List Char) : List Char :=
  errA ++ natToChars code ++ errB ++ natToChars code ++ errC ++ message ++ errD

/-- `CustomHTTPRequestHandler.send_error` (lines 540–576). The preliminary
`message.encode('utf-8', 'replace').decode('utf-8')` is the identity on the
scalar-value strings a `List Char` models, so it does not appear here. -/
def send_error_response (code : Nat) (message : List Char) : Response :=
  { status := code
    headers := [(hdrContentType, ctHtmlUtf8), (hdrConnection, connClose)]
    body := utf8Str (errorHtml code message) }

/-- Trivial disposition-value builder used for concrete instances. -/
def mkDisp0 : List Char → List Char := fun _ => []

/-- Codec that always fails, used for concrete instances. -/
def decode0 : List Char → List Nat → Option (List Nat) := fun _ _ => none

/-- Codec returning the two CJK code points `中文`, used for concrete
instances; its outputs are scalar values. -/
def decodeZh : List Char → List Nat → Option (List Nat) := fun _ _ => some [0x4E2D, 0x6587]

/-- Sample content type `text/plain`. -/
def ctPlain : List Char := "text/plain".toList

/-- Sample content type `application/jsonx`: a strict extension of
`application/json`, so the code's prefix test and the spec's equality test
disagree on it. -/
def appJsonX : List Char := "application/jsonx".toList

/-- Sample encoding name `gbk`. -/
def gbkName : List Char := "gbk".toList

/-- Sample encoding name `UTF-8` (upper case, lowercasing to `utf-8`). -/
def utfUpperName : List Char := "UTF-8".toList

/-- Sample request path `/a.txt` (no query string). -/
def rawPlain : List Char := "/a.txt".toList

/-- Sample request path `/d.jsonx` (no query string). -/
def rawJsonx : List Char := "/d.jsonx".toList

/-- Sample request path `/secret.txt?download=true`. -/
def rawDownload : List Char := "/secret.txt?download=true".toList

/-- Sample file name `a.txt`. -/
def fname0 : List Char := "a.txt".toList

/-- Sample GBK-encoded bytes (the encoding of `中文` in GBK). -/
def gbkBytes : List Nat := [0xD6, 0xD0, 0xCE, 0xC4]

/-- Component list of the sample root `/srv`. -/
def rcompsSrv : List (List Char) := ["srv".toList]

/-- Sample root directory `/srv` in the shape the containment theorem uses. -/
def rootSrv : List Char := '/' :: joinWith '/' rcompsSrv

/-- Sample request path `/docs/a.txt`. -/
def rawDocs : List Char := "/docs/a.txt".toList

/-- Resolved sample path `/srv/docs/a.txt`. -/
def fpDocs : List Char := "/srv/docs/a.txt".toList

/-- Sample root directory `/r`. -/
def rootR : List Char := "/r".toList

/-- Sample request path `/a../b`, whose literal file name contains `..`. -/
def rawTrav : List Char := "/a../b".toList

/-- Sample error message `<i>` containing an HTML special character. -/
def msgScript : List Char := "<i>".toList

/-- `List.isPrefixOf` decides the existence of a completing suffix. -/
theorem isPrefixOf_iff {α : Type} [BEq α] [LawfulBEq α] (p s : List α) :
    p.isPrefixOf s = true ↔ ∃ t, s = p ++ t := by
  induction p generalizing s with
  | nil => simp [List.isPrefixOf]
  | cons a p ih =>
    cases s with
    | nil => simp [List.isPrefixOf]
    | cons b s =>
      simp only [List.isPrefixOf, Bool.and_eq_true, beq_iff_eq, ih, List.cons_append,
        List.cons.injEq]
      constructor
      · rintro ⟨rfl, t, rfl⟩; exact ⟨t, rfl, rfl⟩
      · rintro ⟨t, rfl, rfl⟩; exact ⟨rfl, t, rfl⟩

/-- `hasSub` decides the Python substring test. -/
theorem hasSub_iff {α : Type} [DecidableEq α] (pat s : List α) :
    hasSub pat s = true ↔ ∃ a b, s = a ++ pat ++ b := by
  induction s with
  | nil =>
    simp only [hasSub, isPrefixOf_iff]
    constructor
    · rintro ⟨t, ht⟩
      exact ⟨[], t, by simpa using ht⟩
    · rintro ⟨a, b, h⟩
      have h' : a ++ (pat ++ b) = [] := by simpa [List.append_assoc] using h.symm
      obtain ⟨-, hpb⟩ := List.append_eq_nil.mp h'
      obtain ⟨hp, -⟩ := List.append_eq_nil.mp hpb
      exact ⟨[], by simp [hp]⟩
  | cons c rest ih =>
    simp only [hasSub, Bool.or_eq_true, isPrefixOf_iff, ih]
    constructor
    · rintro (⟨t, ht⟩ | ⟨a, b, rfl⟩)
      · exact ⟨[], t, by simpa using ht⟩
      · exact ⟨c :: a, b, rfl⟩
    · rintro ⟨a, b, h⟩
      cases a with
      | nil => exact Or.inl ⟨b, by simpa using h⟩
      | cons x a =>
        right
        obtain ⟨rfl, h2⟩ := List.cons.injEq .. ▸ h
        exact ⟨a, b, by simpa using h2⟩

/-- A substring absent from `s` is absent from any `dropWhile` of `s`. -/
theorem hasSub_dropWhile {α : Type} [DecidableEq α] (pat : List α) (f : α → Bool)
    (s : List α) (h : hasSub pat s = false) : hasSub pat (s.dropWhile f) = false := by
  induction s with
  | nil => simpa using h
  | cons c rest ih =>
    simp only [hasSub, Bool.or_eq_false_iff] at h
    rw [List.dropWhile_cons]
    split
    · exact ih h.2
    · simpa [hasSub, h.1] using h.2

/-- The head of `dropWhile f s` does not satisfy `f`. -/
theorem head?_dropWhile {α : Type} (f : α → Bool) (s : List α) (c : α)
    (h : (s.dropWhile f).head? = some c) : f c = false := by
  induction s with
  | nil => simp [List.dropWhile] at h
  | cons x rest ih =>
    rw [List.dropWhile_cons] at h
    by_cases hf : f x = true
    · rw [if_pos hf] at h
      exact ih h
    · rw [if_neg hf] at h
      simp only [List.head?_cons, Option.some.injEq] at h
      subst h
      simpa using hf

/-- `splitOnChar` always returns at least one piece. -/
theorem splitOnChar_ne_nil (sep : Char) (s : List Char) : splitOnChar sep s ≠ [] := by
  cases s with
  | nil => simp [splitOnChar]
  | cons c rest =>
    simp only [splitOnChar]
    split
    · simp
    · split <;> simp

/-- Splitting distributes over concatenation at a separator. -/
theorem splitOnChar_append (sep : Char) (a b : List Char) :
    splitOnChar sep (a ++ sep :: b) = splitOnChar sep a ++ splitOnChar sep b := by
  induction a with
  | nil => simp [splitOnChar]
  | cons c a ih =>
    by_cases hc : c = sep
    · subst hc
      simp [splitOnChar, ih]
    · obtain ⟨s, ss, hs⟩ : ∃ s ss, splitOnChar sep a = s :: ss := by
        cases h : splitOnChar sep a with
        | nil => exact absurd h (splitOnChar_ne_nil sep a)
        | cons s ss => exact ⟨s, ss, rfl⟩
      simp [splitOnChar, hc, ih, hs]

/-- A string without the separator splits into itself alone. -/
theorem splitOnChar_not_mem (sep : Char) (s : List Char) (h : sep ∉ s) :
    splitOnChar sep s = [s] := by
  induction s with
  | nil => simp [splitOnChar]
  | cons c rest ih =>
    simp only [List.mem_cons, not_or] at h
    rw [splitOnChar, if_neg (fun hc => h.1 hc.symm), ih h.2]

/-- Splitting inverts joining for a nonempty list of separator-free pieces. -/
theorem splitOnChar_joinWith (sep : Char) (cs : List (List Char)) (hne : cs ≠ [])
    (h : ∀ c ∈ cs, sep ∉ c) :
    splitOnChar sep (joinWith sep cs) = cs := by
  induction cs with
  | nil => exact absurd rfl hne
  | cons g gs ih =>
    cases gs with
    | nil => exact splitOnChar_not_mem sep g (h g (by simp))
    | cons g2 gs2 =>
      rw [joinWith, splitOnChar_append, splitOnChar_not_mem sep g (h g (by simp)),
        ih (by simp) (fun c hc => h c (List.mem_cons_of_mem g hc))]
      rfl

/-- Every piece produced by `splitOnChar` is separator-free. -/
theorem mem_splitOnChar_not_mem (sep : Char) (s : List Char) :
    ∀ c ∈ splitOnChar sep s, sep ∉ c := by
  induction s with
  | nil => simp [splitOnChar]
  | cons x rest ih =>
    by_cases hx : x = sep
    · subst hx
      simpa [splitOnChar] using ih
    · obtain ⟨s1, ss, hs⟩ : ∃ s1 ss, splitOnChar sep rest = s1 :: ss := by
        cases h : splitOnChar sep rest with
        | nil => exact absurd h (splitOnChar_ne_nil sep rest)
        | cons s1 ss => exact ⟨s1, ss, rfl⟩
      simp only [splitOnChar, if_neg hx, hs]
      intro c hc
      rcases List.mem_cons.mp hc with rfl | hc2
      · have h1 := ih s1 (by simp [hs])
        simp only [List.mem_cons, not_or]
        exact ⟨fun he => hx he.symm, h1⟩
      · exact ih c (by simp [hs, hc2])

/-- Splitting a string that starts with the separator. -/
theorem splitOnChar_cons_sep (sep : Char) (rest : List Char) :
    splitOnChar sep (sep :: rest) = [] :: splitOnChar sep rest := by
  simp [splitOnChar]

/-- Splitting never yields the empty list of pieces, in existential form. -/
theorem splitOnChar_eq_cons (sep : Char) (s : List Char) :
    ∃ t ss, splitOnChar sep s = t :: ss := by
  cases h : splitOnChar sep s with
  | nil => exact absurd h (splitOnChar_ne_nil sep s)
  | cons t ss => exact ⟨t, ss, rfl⟩

/-- Splitting a string that starts with a non-separator character. -/
theorem splitOnChar_cons_ne (sep x : Char) (rest s1 : List Char) (ss : List (List Char))
    (hx : x ≠ sep) (hs : splitOnChar sep rest = s1 :: ss) :
    splitOnChar sep (x :: rest) = (x :: s1) :: ss := by
  simp [splitOnChar, hx, hs]

/-- The first piece of `splitOnChar` is an initial segment of the input. -/
theorem splitOnChar_head_init (sep : Char) (s : List Char) (t : List Char)
    (ss : List (List Char)) (h : splitOnChar sep s = t :: ss) : ∃ u, s = t ++ u := by
  induction s generalizing t ss with
  | nil =>
    simp only [splitOnChar, List.cons.injEq] at h
    exact ⟨[], by simp [← h.1]⟩
  | cons x rest ih =>
    by_cases hx : x = sep
    · subst hx
      rw [splitOnChar_cons_sep] at h
      simp only [List.cons.injEq] at h
      exact ⟨x :: rest, by simp [← h.1]⟩
    · obtain ⟨s1, ss1, hs⟩ := splitOnChar_eq_cons sep rest
      rw [splitOnChar_cons_ne sep x rest s1 ss1 hx hs] at h
      simp only [List.cons.injEq] at h
      obtain ⟨u, hu⟩ := ih s1 ss1 hs
      exact ⟨u, by simp [← h.1, hu]⟩

/-- If `..` does not occur as a substring, no slash-separated component is the
literal component `..`. -/
theorem no_dd_comp (s : List Char) (h : hasSub ddStr s = false) :
    ∀ c ∈ splitOnChar '/' s, c ≠ ddStr := by
  induction s with
  | nil =>
    intro c hc
    simp only [splitOnChar, List.mem_singleton] at hc
    subst hc
    simp [ddStr]
  | cons x rest ih =>
    simp only [hasSub, Bool.or_eq_false_iff] at h
    by_cases hx : x = '/'
    · subst hx
      rw [splitOnChar_cons_sep]
      intro c hc
      rcases List.mem_cons.mp hc with rfl | hc2
      · simp [ddStr]
      · exact ih h.2 c hc2
    · obtain ⟨s1, ss1, hs⟩ := splitOnChar_eq_cons '/' rest
      rw [splitOnChar_cons_ne '/' x rest s1 ss1 hx hs]
      intro c hc
      rcases List.mem_cons.mp hc with rfl | hc2
      · intro hdd
        have hx1 : x = '.' ∧ s1 = ['.'] := by
          have := hdd
          simp only [ddStr, List.cons.injEq] at this
          exact ⟨this.1, this.2⟩
        obtain ⟨u, hu⟩ := splitOnChar_head_init '/' rest s1 ss1 hs
        rw [hx1.2] at hu
        have : ddStr.isPrefixOf (x :: rest) = true := by
          rw [hx1.1, hu]
          simp [ddStr, List.isPrefixOf]
        rw [this] at h
        simpa using h.1
      · exact ih h.2 c (hs ▸ List.mem_cons_of_mem s1 hc2)

/-- With no `..` component present, the `normpath` component loop reduces to
filtering out empty and `.` components. -/
theorem normpathComps_no_dd (isAbs : Bool) (comps : List (List Char))
    (h : ∀ c ∈ comps, c ≠ ddStr) :
    ∀ acc, comps.foldl (normStep isAbs) acc =
      acc ++ comps.filter (fun c => decide (c ≠ []) && decide (c ≠ dotStr)) := by
  induction comps with
  | nil => intro acc; simp
  | cons c cs ih =>
    intro acc
    rw [List.foldl_cons]
    by_cases hc : c = [] ∨ c = dotStr
    · have hstep : normStep isAbs acc c = acc := by rw [normStep, if_pos hc]
      have hfilt : (decide (c ≠ []) && decide (c ≠ dotStr)) = false := by
        rcases hc with rfl | rfl <;> simp
      have hfiltL : List.filter (fun c => decide (c ≠ []) && decide (c ≠ dotStr)) (c :: cs)
          = List.filter (fun c => decide (c ≠ []) && decide (c ≠ dotStr)) cs := by
        simp only [List.filter_cons, hfilt]
        simp
      rw [hstep, hfiltL]
      exact ih (fun x hx => h x (List.mem_cons_of_mem c hx)) acc
    · have hdd : c ≠ ddStr := h c (by simp)
      have hstep : normStep isAbs acc c = acc ++ [c] := by
        rw [normStep, if_neg hc, if_pos (Or.inl hdd)]
      have hfilt : (decide (c ≠ []) && decide (c ≠ dotStr)) = true := by
        push_neg at hc
        simp [hc.1, hc.2]
      have hfiltL : List.filter (fun c => decide (c ≠ []) && decide (c ≠ dotStr)) (c :: cs)
          = c :: List.filter (fun c => decide (c ≠ []) && decide (c ≠ dotStr)) cs := by
        simp only [List.filter_cons, hfilt]
        simp
      rw [hstep, hfiltL, ih (fun x hx => h x (List.mem_cons_of_mem c hx)) (acc ++ [c])]
      simp

/-- Joining a list headed by a nonempty piece starts with that piece's head. -/
theorem joinWith_cons_head (sep y : Char) (g' : List Char) (gs : List (List Char)) :
    ∃ t, joinWith sep ((y :: g') :: gs) = y :: t := by
  cases gs with
  | nil => exact ⟨g', rfl⟩
  | cons g2 gs2 => exact ⟨g' ++ sep :: joinWith sep (g2 :: gs2), rfl⟩

/-- Joining nonempty pieces yields a nonempty string. -/
theorem joinWith_ne_nil (sep : Char) (g : List Char) (gs : List (List Char))
    (hg : g ≠ []) : joinWith sep (g :: gs) ≠ [] := by
  cases g with
  | nil => exact absurd rfl hg
  | cons y g' =>
    obtain ⟨t, ht⟩ := joinWith_cons_head sep y g' gs
    simp [ht]

/-- The last character of a join of nonempty separator-free pieces is not the
separator. -/
theorem getLast?_joinWith (sep : Char) (G : List (List Char)) (hne : G ≠ [])
    (h : ∀ c ∈ G, c ≠ [] ∧ sep ∉ c) :
    ∃ x, (joinWith sep G).getLast? = some x ∧ x ≠ sep := by
  induction G with
  | nil => exact absurd rfl hne
  | cons g gs ih =>
    cases gs with
    | nil =>
      obtain ⟨hg, hsep⟩ := h g (by simp)
      refine ⟨g.getLast hg, by simpa [joinWith] using List.getLast?_eq_getLast g hg, ?_⟩
      intro hxsep
      exact hsep (hxsep ▸ List.getLast_mem hg)
    | cons g2 gs2 =>
      obtain ⟨x, hx, hxsep⟩ := ih (by simp)
        (fun c hc => h c (List.mem_cons_of_mem g hc))
      refine ⟨x, ?_, hxsep⟩
      have hg2 : g2 ≠ [] := (h g2 (by simp)).1
      have hJ2 : joinWith sep (g2 :: gs2) ≠ [] := joinWith_ne_nil sep g2 gs2 hg2
      rw [joinWith, List.getLast?_append_cons]
      cases hJ : joinWith sep (g2 :: gs2) with
      | nil => exact absurd hJ hJ2
      | cons y J2 =>
        rw [hJ] at hx
        rw [List.getLast?_cons_cons]
        exact hx

/-- Components of an absolute path written as `/` followed by a join of
nonempty separator-free components. -/
theorem pathComps_slashJoin (G : List (List Char))
    (h : ∀ c ∈ G, c ≠ [] ∧ '/' ∉ c) :
    pathComps ('/' :: joinWith '/' G) = G := by
  cases G with
  | nil => rfl
  | cons g gs =>
    rw [pathComps, splitOnChar_cons_sep,
      splitOnChar_joinWith '/' (g :: gs) (by simp) (fun c hc => (h c hc).2)]
    rw [List.filter_cons_of_neg (by simp)]
    exact List.filter_eq_self.mpr (fun a ha => by
      cases a with
      | nil => exact absurd rfl (h [] ha).1
      | cons y ys => simp)

/-- An absolute path whose second character is not another slash keeps exactly
one leading slash under `normpath`. -/
theorem initialSlashes_single (tail0 : List Char)
    (h : ∀ c, tail0.head? = some c → c ≠ '/') :
    initialSlashes ('/' :: tail0) = ['/'] := by
  rw [initialSlashes, if_pos (by simp), if_neg]
  intro hand
  obtain ⟨h2, -⟩ := hand
  cases tail0 with
  | nil => simp at h2
  | cons c t =>
    simp only [List.take_succ_cons, List.take_zero, List.cons.injEq, and_true] at h2
    exact h c rfl h2.2

/-- Normalizing an absolute path `/tail0` whose split is a clean component list
followed by the split of `rel`: the result keeps the clean components and
appends the cleaned-up components of `rel`. -/
theorem normpath_clean_core (rcomps : List (List Char)) (rel tail0 : List Char)
    (hclean : ∀ c ∈ rcomps, c ≠ [] ∧ '/' ∉ c ∧ c ≠ dotStr ∧ c ≠ ddStr)
    (hdd : hasSub ddStr rel = false)
    (htail0 : ∀ c, tail0.head? = some c → c ≠ '/')
    (hsplit : splitOnChar '/' ('/' :: tail0) = [] :: rcomps ++ splitOnChar '/' rel) :
    ∃ F, normpath ('/' :: tail0) = '/' :: joinWith '/' (rcomps ++ F)
      ∧ ∀ c ∈ F, c ≠ [] ∧ '/' ∉ c := by
  refine ⟨(splitOnChar '/' rel).filter (fun c => decide (c ≠ []) && decide (c ≠ dotStr)),
    ?_, ?_⟩
  · have hall : ∀ c ∈ ([] :: rcomps ++ splitOnChar '/' rel), c ≠ ddStr := by
      intro c hc
      rcases List.mem_cons.mp hc with rfl | hc2
      · simp [ddStr]
      · rcases List.mem_append.mp hc2 with hc3 | hc4
        · exact (hclean c hc3).2.2.2
        · exact no_dd_comp rel hdd c hc4
    have hIsAbs : (('/' :: tail0).head? == some '/') = true := by simp
    have hfc : List.filter (fun c : List Char => decide (c ≠ []) && decide (c ≠ dotStr))
        ([] :: rcomps)
        = List.filter (fun c : List Char => decide (c ≠ []) && decide (c ≠ dotStr)) rcomps := by
      simp [List.filter_cons]
    rw [normpath, if_neg (by simp), initialSlashes_single tail0 htail0, hIsAbs, hsplit,
      normpathComps, normpathComps_no_dd true _ hall []]
    rw [List.nil_append, List.filter_append, hfc,
      List.filter_eq_self.mpr (fun a ha => by
        obtain ⟨h1, -, h3, -⟩ := hclean a ha
        simp [h1, h3])]
    rw [orDot, if_neg (by simp)]
    simp
  · intro c hc
    obtain ⟨hmem, hpred⟩ := List.mem_filter.mp hc
    simp only [Bool.and_eq_true, decide_eq_true_eq] at hpred
    exact ⟨hpred.1, mem_splitOnChar_not_mem '/' rel c hmem⟩

/-- Joining a `..`-free relative path under a normalized absolute root and
normalizing keeps the root's components as a prefix. -/
theorem normpath_join_under (rcomps : List (List Char)) (rel : List Char)
    (hclean : ∀ c ∈ rcomps, c ≠ [] ∧ '/' ∉ c ∧ c ≠ dotStr ∧ c ≠ ddStr)
    (hrel0 : ∀ c, rel.head? = some c → c ≠ '/')
    (hdd : hasSub ddStr rel = false) :
    ∃ F, normpath (joinPath ('/' :: joinWith '/' rcomps) rel)
        = '/' :: joinWith '/' (rcomps ++ F)
      ∧ ∀ c ∈ F, c ≠ [] ∧ '/' ∉ c := by
  have hbnota : ¬ rel.head? = some '/' := fun hh => hrel0 '/' hh rfl
  cases rcomps with
  | nil =>
    have hjoin : joinPath ('/' :: joinWith '/' []) rel = '/' :: rel := by
      rw [joinPath, if_neg hbnota, if_pos (Or.inr (by simp [joinWith]))]
      simp [joinWith]
    rw [hjoin]
    exact normpath_clean_core [] rel rel hclean hdd hrel0
      (by rw [splitOnChar_cons_sep]; simp)
  | cons g gs =>
    obtain ⟨hg, hgsl, -, -⟩ := hclean g (by simp)
    have hJne : joinWith '/' (g :: gs) ≠ [] := joinWith_ne_nil '/' g gs hg
    obtain ⟨x, hx, hxne⟩ := getLast?_joinWith '/' (g :: gs) (by simp)
      (fun c hc => ⟨(hclean c hc).1, (hclean c hc).2.1⟩)
    have hroot_last : ('/' :: joinWith '/' (g :: gs)).getLast? = some x := by
      cases hJ : joinWith '/' (g :: gs) with
      | nil => exact absurd hJ hJne
      | cons yy J2 =>
        rw [hJ] at hx
        rw [List.getLast?_cons_cons]
        exact hx
    have hjoin : joinPath ('/' :: joinWith '/' (g :: gs)) rel
        = ('/' :: joinWith '/' (g :: gs)) ++ '/' :: rel := by
      rw [joinPath, if_neg hbnota, if_neg]
      intro hor
      rcases hor with h1 | h2
      · exact absurd h1 (by simp)
      · rw [hroot_last] at h2
        injection h2 with h3
        exact hxne h3
    obtain ⟨y, g', rfl⟩ : ∃ y g', g = y :: g' := by
      cases g with
      | nil => exact absurd rfl hg
      | cons y g' => exact ⟨y, g', rfl⟩
    have hyne : y ≠ '/' := by
      intro he
      subst he
      exact hgsl (by simp)
    obtain ⟨t, ht⟩ := joinWith_cons_head '/' y g' gs
    have htail0 : ∀ c, (joinWith '/' ((y :: g') :: gs) ++ '/' :: rel).head? = some c →
        c ≠ '/' := by
      intro c hc
      rw [ht] at hc
      simp only [List.cons_append, List.head?_cons, Option.some.injEq] at hc
      subst hc
      exact hyne
    have hsplit : splitOnChar '/' ('/' :: (joinWith '/' ((y :: g') :: gs) ++ '/' :: rel))
        = [] :: ((y :: g') :: gs) ++ splitOnChar '/' rel := by
      rw [splitOnChar_cons_sep, splitOnChar_append,
        splitOnChar_joinWith '/' ((y :: g') :: gs) (by simp)
          (fun c hc => (hclean c hc).2.1)]
      simp
    have hshift : ('/' :: joinWith '/' ((y :: g') :: gs)) ++ '/' :: rel
        = '/' :: (joinWith '/' ((y :: g') :: gs) ++ '/' :: rel) := by simp
    rw [hjoin, hshift]
    exact normpath_clean_core ((y :: g') :: gs) rel _ hclean hdd htail0 hsplit

/-- C2: for every request accepted by `translate_path` (not rejected with 403),
the returned normalized absolute path is a descendant of, or equal to, the
configured root directory, for any root in normalized absolute form (absolute,
and made of nonempty, slash-free, non-`.`, non-`..` components, as
`os.path.abspath` guarantees for the root `main` installs): the root's
component list is a prefix of the result's component list. -/
theorem C2_path_containment (rcomps : List (List Char)) (root : List Char)
    (unquote : List Char → List Char) (raw fp : List Char)
    (hroot : root = '/' :: joinWith '/' rcomps)
    (hclean : ∀ c ∈ rcomps, c ≠ [] ∧ '/' ∉ c ∧ c ≠ dotStr ∧ c ≠ ddStr)
    (hok : translate_path unquote root raw = ResolveResult.ok fp) :
    fp.head? = some '/' ∧ pathComps root <+: pathComps fp := by
  subst hroot
  simp only [translate_path] at hok
  by_cases h1 : unquote (stripQuery raw) = slashStr
  · rw [if_pos h1] at hok
    injection hok with h2
    subst h2
    exact ⟨rfl, [], List.append_nil _⟩
  · rw [if_neg h1] at hok
    by_cases h2 : hasSub ddStr (unquote (stripQuery raw)) = true
    · rw [if_pos h2] at hok
      exact absurd hok (by simp)
    · rw [if_neg h2] at hok
      by_cases h3 : (!((normpath ('/' :: joinWith '/' rcomps)).isPrefixOf
          (normpath (joinPath ('/' :: joinWith '/' rcomps)
            ((unquote (stripQuery raw)).dropWhile (fun c => c == '/')))))) = true
      · rw [if_pos h3] at hok
        exact absurd hok (by simp)
      · rw [if_neg h3] at hok
        injection hok with h4
        have hrel0 : ∀ c,
            ((unquote (stripQuery raw)).dropWhile (fun c => c == '/')).head? = some c →
            c ≠ '/' := by
          intro c hc
          have hh := head?_dropWhile (fun c => c == '/') (unquote (stripQuery raw)) c hc
          simpa using hh
        have hdd : hasSub ddStr
            ((unquote (stripQuery raw)).dropWhile (fun c => c == '/')) = false := by
          exact hasSub_dropWhile ddStr _ _ (by simpa using h2)
        obtain ⟨F, hF, hFclean⟩ := normpath_join_under rcomps _ hclean hrel0 hdd
        rw [← h4, hF]
        constructor
        · rfl
        · rw [pathComps_slashJoin (rcomps ++ F) (fun c hc => by
            rcases List.mem_append.mp hc with hc1 | hc2
            · exact ⟨(hclean c hc1).1, (hclean c hc1).2.1⟩
            · exact hFclean c hc2),
            pathComps_slashJoin rcomps (fun c hc =>
              ⟨(hclean c hc).1, (hclean c hc).2.1⟩)]
          exact ⟨F, rfl⟩

/-- C3: every request whose URL-decoded path (other than the literal `/`)
contains the substring `..` anywhere is rejected by `translate_path` with a 403
before the path is joined under the root: the result is exactly the
`send_error(403, …)` traversal rejection. -/
theorem C3_dotdot_rejected (unquote : List Char → List Char) (root raw : List Char)
    (hdd : ∃ a b, unquote (stripQuery raw) = a ++ ddStr ++ b)
    (hne : unquote (stripQuery raw) ≠ slashStr) :
    translate_path unquote root raw = ResolveResult.err 403 msgTraversal := by
  simp only [translate_path]
  rw [if_neg hne, if_pos ((hasSub_iff ddStr (unquote (stripQuery raw))).mpr hdd)]

/-- An expectation of zero continuation bytes does not depend on the range. -/
theorem validFrom_zero (lo hi : Nat) (l : List Nat) :
    validFrom 0 lo hi l = validFrom 0 0 0 l := by
  cases l <;> rfl

/-- Stepping the validator over a classified lead byte. -/
theorem validFrom_lead (b : Nat) (rest : List Nat) (n lo hi : Nat)
    (h : utf8Lead b = some (n, lo, hi)) :
    validFrom 0 0 0 (b :: rest) = validFrom n lo hi rest := by
  simp only [validFrom, h]

/-- Stepping the validator over an in-range continuation byte. -/
theorem validFrom_cont (n lo hi b : Nat) (rest : List Nat) (h1 : lo ≤ b) (h2 : b < hi) :
    validFrom (n + 1) lo hi (b :: rest) = validFrom n 0x80 0xC0 rest := by
  simp only [validFrom]
  rw [if_pos ⟨h1, h2⟩]

/-- The UTF-8 encoding of a scalar value prepended to a valid byte string is a
valid byte string. -/
theorem validUTF8_encodeChar_append (c : Nat) (hc : isScalar c = true)
    (rest : List Nat) (hr : validUTF8 rest = true) :
    validUTF8 (utf8EncodeChar c ++ rest) = true := by
  have hc' : c < 0xD800 ∨ (0xE000 ≤ c ∧ c < 0x110000) := by
    simpa [isScalar, Bool.or_eq_true, Bool.and_eq_true, decide_eq_true_eq] using hc
  rw [validUTF8] at hr ⊢
  rw [utf8EncodeChar]
  by_cases h1 : c < 0x80
  · rw [if_pos h1]
    simp only [List.cons_append, List.nil_append]
    rw [validFrom_lead _ _ _ _ _ (by rw [utf8Lead, if_pos h1]), validFrom_zero]
    exact hr
  · rw [if_neg h1]
    by_cases h2 : c < 0x800
    · rw [if_pos h2]
      simp only [List.cons_append, List.nil_append]
      have hlead2 : utf8Lead (0xC0 + c / 64) = some (1, 0x80, 0xC0) := by
        have ha1 : ¬ 0xC0 + c / 64 < 0x80 := by omega
        have ha2 : ¬ 0xC0 + c / 64 < 0xC2 := by omega
        have ha3 : 0xC0 + c / 64 < 0xE0 := by omega
        rw [utf8Lead, if_neg ha1, if_neg ha2, if_pos ha3]
      rw [validFrom_lead _ _ _ _ _ hlead2,
        validFrom_cont _ _ _ _ _ (by omega) (by omega), validFrom_zero]
      exact hr
    · rw [if_neg h2]
      by_cases h3 : c < 0x10000
      · rw [if_pos h3]
        simp only [List.cons_append, List.nil_append]
        have hlead : utf8Lead (0xE0 + c / 4096) =
            some (2, if c < 0x1000 then 0xA0 else 0x80,
                     if 0xD000 ≤ c ∧ c < 0xE000 then 0xA0 else 0xC0) := by
          by_cases hE : c < 0x1000
          · rw [show (0xE0 + c / 4096 : Nat) = 0xE0 from by omega]
            rw [if_pos hE, if_neg (by omega)]
            rfl
          · by_cases hD : 0xD000 ≤ c ∧ c < 0xE000
            · rw [show (0xE0 + c / 4096 : Nat) = 0xED from by omega]
              rw [if_neg hE, if_pos hD]
              rfl
            · have hb1 : ¬ 0xE0 + c / 4096 < 0x80 := by omega
              have hb2 : ¬ 0xE0 + c / 4096 < 0xC2 := by omega
              have hb3 : ¬ 0xE0 + c / 4096 < 0xE0 := by omega
              have hb4 : ¬ 0xE0 + c / 4096 = 0xE0 := by omega
              have hb5 : ¬ 0xE0 + c / 4096 = 0xED := by omega
              have hb6 : 0xE0 + c / 4096 < 0xF0 := by omega
              rw [utf8Lead, if_neg hb1, if_neg hb2, if_neg hb3, if_neg hb4, if_neg hb5,
                if_pos hb6, if_neg hE, if_neg hD]
        rw [validFrom_lead _ _ _ _ _ hlead]
        rw [validFrom_cont _ _ _ _ _
            (by split <;> omega)
            (by split <;> omega),
          validFrom_cont _ _ _ _ _ (by omega) (by omega), validFrom_zero]
        exact hr
      · rw [if_neg h3]
        simp only [List.cons_append, List.nil_append]
        have hlead : utf8Lead (0xF0 + c / 262144) =
            some (3, if c < 0x40000 then 0x90 else 0x80,
                     if 0x100000 ≤ c then 0x90 else 0xC0) := by
          by_cases hE : c < 0x40000
          · rw [show (0xF0 + c / 262144 : Nat) = 0xF0 from by omega]
            rw [if_pos hE, if_neg (by omega)]
            rfl
          · by_cases hD : 0x100000 ≤ c
            · rw [show (0xF0 + c / 262144 : Nat) = 0xF4 from by omega]
              rw [if_neg hE, if_pos hD]
              rfl
            · have hd1 : ¬ 0xF0 + c / 262144 < 0x80 := by omega
              have hd2 : ¬ 0xF0 + c / 262144 < 0xC2 := by omega
              have hd3 : ¬ 0xF0 + c / 262144 < 0xE0 := by omega
              have hd4 : ¬ 0xF0 + c / 262144 = 0xE0 := by omega
              have hd5 : ¬ 0xF0 + c / 262144 = 0xED := by omega
              have hd6 : ¬ 0xF0 + c / 262144 < 0xF0 := by omega
              have hd7 : ¬ 0xF0 + c / 262144 = 0xF0 := by omega
              have hd8 : 0xF0 + c / 262144 < 0xF4 := by omega
              have hd9 : ¬ 0x100000 ≤ c := by omega
              rw [utf8Lead, if_neg hd1, if_neg hd2, if_neg hd3, if_neg hd4, if_neg hd5,
                if_neg hd6, if_neg hd7, if_pos hd8, if_neg hE, if_neg hd9]
        rw [validFrom_lead _ _ _ _ _ hlead]
        rw [validFrom_cont _ _ _ _ _
            (by split <;> omega)
            (by split <;> omega),
          validFrom_cont _ _ _ _ _ (by omega) (by omega),
          validFrom_cont _ _ _ _ _ (by omega) (by omega), validFrom_zero]
        exact hr

/-- The UTF-8 encoding of any sequence of scalar values is a valid byte
string: this is the re-encoding step of `convert_to_utf8`. -/
theorem validUTF8_utf8Encode (cs : List Nat) (h : ∀ c ∈ cs, isScalar c = true) :
    validUTF8 (utf8Encode cs) = true := by
  induction cs with
  | nil => rfl
  | cons c cs ih =>
    rw [utf8Encode, List.map_cons, List.flatten_cons]
    refine validUTF8_encodeChar_append c (h c (by simp)) _ ?_
    rw [show (List.map utf8EncodeChar cs).flatten = utf8Encode cs from rfl]
    exact ih (fun x hx => h x (List.mem_cons_of_mem c hx))

/-- Concatenating the 8192-byte read chunks restores the content, length-bounded
auxiliary form. -/
theorem readChunks_flatten_aux (n : Nat) :
    ∀ c : List Nat, c.length ≤ n → (readChunks c).flatten = c := by
  induction n with
  | zero =>
    intro c hc
    have hnil : c = [] := List.length_eq_zero.mp (Nat.le_zero.mp hc)
    subst hnil
    simp [readChunks]
  | succ n ih =>
    intro c hc
    cases c with
    | nil => simp [readChunks]
    | cons b rest =>
      simp only [List.length_cons] at hc
      have hlen : ((b :: rest).drop 8192).length ≤ n := by
        simp only [List.length_drop, List.length_cons]
        omega
      rw [readChunks, List.flatten_cons, ih ((b :: rest).drop 8192) hlen]
      exact List.take_append_drop 8192 (b :: rest)

/-- Concatenating the 8192-byte read chunks restores the file content. -/
theorem readChunks_flatten (c : List Nat) : (readChunks c).flatten = c :=
  readChunks_flatten_aux c.length c (Nat.le_refl _)

/-- C8: for a file served through the download/attachment path (not
text-classified, or requested with the download flag), the concatenation of the
body bytes written by the 8192-byte chunk loop equals the file's original bytes
exactly — no transformation is applied. -/
theorem C8_download_byte_identical (mkDisp : List Char → List Char)
    (decode : List Char → List Nat → Option (List Nat))
    (detected : Option (List Char)) (guessedType : Option (List Char))
    (rawPath fname : List Char) (content : List Nat)
    (h : is_text_file (guessedType.getD octetStream) = false
        ∨ download_requested rawPath = true) :
    (send_file mkDisp decode detected guessedType rawPath fname content).body
      = content := by
  simp only [send_file]
  rcases h with h | h
  · simp [h, readChunks_flatten]
  · simp [h, readChunks_flatten]

/-- Witness for C8 at a concrete binary file. -/
theorem C8_download_byte_identical_witness :
    (send_file mkDisp0 decode0 none (some octetStream) rawPlain fname0
      [1, 2, 3]).body = [1, 2, 3] :=
  C8_download_byte_identical mkDisp0 decode0 none (some octetStream) rawPlain fname0
    [1, 2, 3] (Or.inl (by decide))

/-- C5: every successful file response carries a `Content-Length` header equal
to the decimal rendering of the on-disk byte count of the file, regardless of
delivery mode (and hence regardless of any transcoding of the body). -/
theorem C5_content_length_is_disk_size (mkDisp : List Char → List Char)
    (decode : List Char → List Nat → Option (List Nat))
    (detected : Option (List Char)) (guessedType : Option (List Char))
    (rawPath fname : List Char) (content : List Nat) :
    List.lookup hdrContentLength
      (send_file mkDisp decode detected guessedType rawPath fname content).headers
      = some (natToChars content.length) := by
  simp only [send_file]
  split
  · rfl
  · rfl

/-- C9: every directory-listing response's `Content-Length` header equals the
byte length of the UTF-8-encoded body it writes. -/
theorem C9_listing_length_matches_body (html : List Char) :
    List.lookup hdrContentLength (send_directory_listing html).headers
      = some (natToChars (send_directory_listing html).body.length) := by
  rfl

/-- C4 (amended): a file response carries a `Content-Disposition` header
exactly when the content type fails the code's prefix-based text
classification or the query string contains `download=true`; otherwise no
disposition header is emitted. -/
theorem C4_attachment_iff_prefix_classified (mkDisp : List Char → List Char)
    (decode : List Char → List Nat → Option (List Nat))
    (detected : Option (List Char)) (guessedType : Option (List Char))
    (rawPath fname : List Char) (content : List Nat) :
    (List.lookup hdrContentDisposition
      (send_file mkDisp decode detected guessedType rawPath fname content).headers).isSome
      = (!is_text_file (guessedType.getD octetStream)
          || download_requested rawPath) := by
  simp only [send_file]
  by_cases h : (!is_text_file (guessedType.getD octetStream)
      || download_requested rawPath) = true
  · rw [if_pos h, h]
    rfl
  · have h' : (!is_text_file (guessedType.getD octetStream)
        || download_requested rawPath) = false := by
      simpa using h
    rw [if_neg h, h']
    rfl

/-- C4 counterexample: on content type `application/jsonx` — not text-classified
by the claim's wording (it is not equal to `application/json` and does not
start with `text/`) — the claim predicts an attachment disposition, but the
code classifies it as text by prefix and emits no `Content-Disposition`. -/
theorem C4_prefix_vs_equality_counterexample :
    spec_text_classified appJsonX = false
    ∧ is_text_file appJsonX = true
    ∧ download_requested rawJsonx = false
    ∧ List.lookup hdrContentDisposition
        (send_file mkDisp0 decode0 none (some appJsonX) rawJsonx fname0 []).headers
        = none := by
  refine ⟨by decide, by decide, by decide, ?_⟩
  rfl

/-- C6 (amended): every file response includes the three CORS headers, while a
directory-listing response includes none of them. -/
theorem C6_cors_on_files_not_listings (mkDisp : List Char → List Char)
    (decode : List Char → List Nat → Option (List Nat))
    (detected : Option (List Char)) (guessedType : Option (List Char))
    (rawPath fname : List Char) (content : List Nat) (html : List Char) :
    (List.lookup acaOrigin
        (send_file mkDisp decode detected guessedType rawPath fname content).headers
        = some starVal
      ∧ List.lookup acaMethods
        (send_file mkDisp decode detected guessedType rawPath fname content).headers
        = some methodsVal
      ∧ List.lookup acaHeaders
        (send_file mkDisp decode detected guessedType rawPath fname content).headers
        = some starVal)
    ∧ (List.lookup acaOrigin (send_directory_listing html).headers = none
      ∧ List.lookup acaMethods (send_directory_listing html).headers = none
      ∧ List.lookup acaHeaders (send_directory_listing html).headers = none) := by
  constructor
  · refine ⟨?_, ?_, ?_⟩ <;> (simp only [send_file]; split) <;> rfl
  · exact ⟨rfl, rfl, rfl⟩

/-- C6 counterexample: a concrete directory-listing response carries no
`Access-Control-Allow-Origin` header at all, refuting the claim that every
listing response includes the three CORS headers. -/
theorem C6_listing_cors_counterexample :
    List.lookup acaOrigin (send_directory_listing []).headers = none := by
  rfl

/-- C10: `convert_to_utf8` is total and atomic on failure — it returns the
input bytes unchanged when no encoding was detected, when the detected encoding
lowercases to `utf-8`, and when decoding with the detected encoding fails (the
caught exception, modelled by the codec returning `none`). -/
theorem C10_convert_total_fallback (decode : List Char → List Nat → Option (List Nat))
    (content : List Nat) :
    convert_to_utf8 decode content none = content
    ∧ (∀ e, toLowerStr e = utf8Name → convert_to_utf8 decode content (some e) = content)
    ∧ (∀ e, decode e content = none → convert_to_utf8 decode content (some e) = content) := by
  refine ⟨rfl, ?_, ?_⟩
  · intro e he
    simp only [convert_to_utf8]
    rw [if_neg (fun hand => hand.2 he)]
  · intro e hd
    simp only [convert_to_utf8]
    by_cases hcond : e ≠ [] ∧ toLowerStr e ≠ utf8Name
    · rw [if_pos hcond, hd]
    · rw [if_neg hcond]

/-- Witness for C10 at concrete inputs: absent detection, an upper-case UTF-8
name, and a failing codec. -/
theorem C10_convert_total_fallback_witness :
    convert_to_utf8 decode0 gbkBytes none = gbkBytes
    ∧ convert_to_utf8 decode0 gbkBytes (some utfUpperName) = gbkBytes
    ∧ convert_to_utf8 decode0 gbkBytes (some gbkName) = gbkBytes :=
  ⟨(C10_convert_total_fallback decode0 gbkBytes).1,
    (C10_convert_total_fallback decode0 gbkBytes).2.1 utfUpperName (by decide),
    (C10_convert_total_fallback decode0 gbkBytes).2.2 gbkName rfl⟩

/-- C1 (amended): for an inline view of a text-classified file, whenever a
usable non-UTF-8 encoding was detected (nonempty name, not lowercasing to
`utf-8`) and the codec decodes the content (into scalar values, as Python's
`errors='replace'` decoding always does), the body written is the UTF-8
re-encoding of the decoded text and is valid UTF-8. In all other cases the raw
file bytes pass through unchanged (see C10) and need not be valid UTF-8. -/
theorem C1_transcoded_view_valid_utf8 (mkDisp : List Char → List Char)
    (decode : List Char → List Nat → Option (List Nat))
    (detected : Option (List Char)) (guessedType : Option (List Char))
    (rawPath fname : List Char) (content : List Nat)
    (hscalar : ∀ e c cps, decode e c = some cps → ∀ x ∈ cps, isScalar x = true)
    (e : List Char) (hdet : detected = some e) (hne : e ≠ [])
    (hlow : toLowerStr e ≠ utf8Name)
    (cps : List Nat) (hdec : decode e content = some cps)
    (htext : is_text_file (guessedType.getD octetStream) = true)
    (hdl : download_requested rawPath = false) :
    (send_file mkDisp decode detected guessedType rawPath fname content).body
      = utf8Encode cps
    ∧ validUTF8
      ((send_file mkDisp decode detected guessedType rawPath fname content).body)
      = true := by
  have hbody : (send_file mkDisp decode detected guessedType rawPath fname content).body
      = convert_to_utf8 decode content detected := by
    simp only [send_file]
    rw [htext, hdl]
    simp
  have hconv : convert_to_utf8 decode content (some e) = utf8Encode cps := by
    simp only [convert_to_utf8]
    rw [if_pos ⟨hne, hlow⟩, hdec]
  rw [hbody, hdet, hconv]
  exact ⟨rfl, validUTF8_utf8Encode cps (hscalar e content cps hdec)⟩

/-- Witness for C1 at a concrete GBK-detected text file whose codec yields two
CJK scalar values. -/
theorem C1_transcoded_view_valid_utf8_witness :
    (send_file mkDisp0 decodeZh (some gbkName) (some ctPlain) rawPlain fname0
      gbkBytes).body = utf8Encode [0x4E2D, 0x6587]
    ∧ validUTF8 ((send_file mkDisp0 decodeZh (some gbkName) (some ctPlain) rawPlain
      fname0 gbkBytes).body) = true :=
  C1_transcoded_view_valid_utf8 mkDisp0 decodeZh (some gbkName) (some ctPlain)
    rawPlain fname0 gbkBytes
    (fun e c cps h => by
      injection h with h'
      subst h'
      decide)
    gbkName rfl (by decide) (by decide) [0x4E2D, 0x6587] rfl (by decide) (by decide)

/-- C1 counterexample: an inline view of a `text/plain` file whose single byte
`0xFF` is not valid UTF-8 while the detector returns no guess: the body passes
the raw byte through, so it is not valid UTF-8 — refuting the claim that the
body is valid UTF-8 for every source content. -/
theorem C1_passthrough_counterexample :
    is_text_file ctPlain = true
    ∧ download_requested rawPlain = false
    ∧ (send_file mkDisp0 decode0 none (some ctPlain) rawPlain fname0 [0xFF]).body
      = [0xFF]
    ∧ validUTF8 [0xFF] = false := by
  refine ⟨by decide, by decide, ?_, by decide⟩
  rfl

/-- C7 (amended): error responses embed the message into the HTML error body
verbatim, without HTML-escaping: the UTF-8 encoding of the raw message is a
contiguous substring of the body for every message. -/
theorem C7_error_message_embedded_verbatim (code : Nat) (msg : List Char) :
    (send_error_response code msg).body = utf8Str (errorHtml code msg)
    ∧ ∃ a b, errorHtml code msg = a ++ msg ++ b :=
  ⟨rfl, errA ++ natToChars code ++ errB ++ natToChars code ++ errC, errD,
    by simp [errorHtml]⟩

set_option maxRecDepth 40000 in
/-- C7 counterexample: for the message `<i>`, the error body contains the raw
bytes of `<i>` — the `<` and `>` from the message appear unescaped — even
though `html_escape` would have rewritten the message. -/
theorem C7_error_escape_counterexample :
    hasSub (utf8Str msgScript) (send_error_response 500 msgScript).body = true
    ∧ html_escape msgScript ≠ msgScript := by
  exact ⟨by decide, by decide⟩

/-- Witness for C2: the accepted request `/docs/a.txt` against root `/srv`
resolves inside the root. -/
theorem C2_path_containment_witness :
    fpDocs.head? = some '/' ∧ pathComps rootSrv <+: pathComps fpDocs :=
  C2_path_containment rcompsSrv rootSrv id rawDocs fpDocs rfl (by decide) (by decide)

/-- Witness for C3: the request `/a../b`, whose decoded path contains `..`
inside a literal file name, is rejected with the 403 traversal error. -/
theorem C3_dotdot_rejected_witness :
    translate_path id rootR rawTrav = ResolveResult.err 403 msgTraversal :=
  C3_dotdot_rejected id rootR rawTrav
    ⟨"/a".toList, "/b".toList, by decide⟩ (by decide)

end FileServer
